import Mathlib

/-!
Shallow embedding of the go-trie repository (membership `Trie` from trie.go and
`ValueTrie` from value_trie.go), together with theorems settling the spec claims.

Go strings are modelled as their sequences of code points (`List Char`), which
is exactly how the source traverses them (`strings.Reader.ReadRune` yields one
rune per step).  Go's `map[int]*Trie` is modelled as an association list keyed
by `Char`; the source only ever inserts a key that is absent, overwrites the
entry for a key in place, or deletes a key, and the corresponding association
list operations (`lookupKey`, `updateKey`, `eraseKey`) have matching semantics.
Go `int` values are modelled as `Int`.
-/

namespace GoTrie

/-- Look up the entry for key `c`, as `m[rune]` does on a Go map. -/
def lookupKey {β : Type} (c : Char) : List (Char × β) → Option β
  | [] => none
  | (k, v) :: rest => if k = c then some v else lookupKey c rest

/-- Store `b` under key `c`, as `m[rune] = n` does on a Go map: replace the
entry when the key is present, otherwise add it. -/
def updateKey {β : Type} (cs : List (Char × β)) (c : Char) (b : β) : List (Char × β) :=
  match cs with
  | [] => [(c, b)]
  | (k, v) :: rest => if k = c then (c, b) :: rest else (k, v) :: updateKey rest c b

/-- Delete the entry for key `c`, as `m[rune] = nil, false` does on a Go map. -/
def eraseKey {β : Type} (c : Char) : List (Char × β) → List (Char × β)
  | [] => []
  | (k, v) :: rest => if k = c then rest else (k, v) :: eraseKey c rest

/-- Membership trie node (trie.go / defs.go): a `leaf` flag and children keyed
by rune. -/
inductive Trie : Type where
  | node (leaf : Bool) (children : List (Char × Trie)) : Trie

/-- Field accessor for `leaf`. -/
def Trie.leaf : Trie → Bool
  | .node lf _ => lf

/-- Field accessor for `children`. -/
def Trie.children : Trie → List (Char × Trie)
  | .node _ cs => cs

/-- NewTrie from trie.go: leaf false, empty child map. -/
def NewTrie : Trie := .node false []

/-- addRunes from trie.go: when the rune stream is exhausted mark this node as
a leaf; otherwise fetch or create the child for the next rune and recurse. -/
def Trie.addRunes : Trie → List Char → Trie
  | .node _ cs, [] => .node true cs
  | .node lf cs, c :: rest =>
    match lookupKey c cs with
    | some n => .node lf (updateKey cs c (Trie.addRunes n rest))
    | none => .node lf (updateKey cs c (Trie.addRunes NewTrie rest))

/-- Add from trie.go: no-op on the empty string, otherwise addRunes. -/
def Trie.Add (t : Trie) (s : String) : Trie :=
  if s.toList = [] then t else t.addRunes s.toList

/-- removeRunes from trie.go.  Returns the rewritten node together with the
boolean the source returns (`len(p.children) == 0` after the removal).  At the
end of the rune stream the leaf flag is cleared; on unwinding, a child whose
recursive call returned true (childless) is deleted from the map. -/
def Trie.removeRunes : Trie → List Char → Trie × Bool
  | .node _ cs, [] => (.node false cs, cs.isEmpty)
  | .node lf cs, c :: rest =>
    match lookupKey c cs with
    | some child =>
      let res := Trie.removeRunes child rest
      let cs2 := if res.2 then eraseKey c cs else updateKey cs c res.1
      (.node lf cs2, cs2.isEmpty)
    | none => (.node lf cs, cs.isEmpty)

/-- Remove from trie.go (the rewritten trie; the source's boolean result is the
second component of `removeRunes`). -/
def Trie.Remove (t : Trie) (s : String) : Trie :=
  if s.toList = [] then t else (t.removeRunes s.toList).1

/-- includes from trie.go: at the end of the rune stream report the leaf flag;
otherwise descend into the child for the next rune, failing when absent. -/
def Trie.includes : Trie → List Char → Bool
  | t, [] => t.leaf
  | t, c :: rest =>
    match lookupKey c t.children with
    | none => false
    | some child => Trie.includes child rest

/-- Contains from trie.go: false on the empty string, otherwise includes. -/
def Trie.Contains (t : Trie) (s : String) : Bool :=
  if s.toList = [] then false else t.includes s.toList

mutual

/-- Size from trie.go: number of nodes strictly below this node (children count
plus the sizes of the child subtrees). -/
def Trie.Size : Trie → Nat
  | .node _ cs => cs.length + sizeChildren cs

/-- Sum of `Size` over a child list (the loop body of Size). -/
def sizeChildren : List (Char × Trie) → Nat
  | [] => 0
  | (_, t) :: rest => Trie.Size t + sizeChildren rest

end

/-! Value trie (value_trie.go).  The Go code feeds values to `addRunes` through
a buffered channel: the producer goroutine pushes a finite list of ints and
closes the channel, after which every further receive yields the zero value 0.
That stream is modelled as the pushed list `vals` plus a read index `i`, a read
being `vals.getD i 0` (default 0 past the end, exactly the closed-channel
behavior). -/

/-- ValueTrie node (value_trie.go / defs.go): per-node `value`, optional
`prefixValue` (0 meaning absent), `leaf` flag, children keyed by rune. -/
inductive ValueTrie : Type where
  | node (value prefixValue : Int) (leaf : Bool) (children : List (Char × ValueTrie)) : ValueTrie

/-- Field accessor for `value`. -/
def ValueTrie.value : ValueTrie → Int
  | .node v _ _ _ => v

/-- Field accessor for `prefixValue`. -/
def ValueTrie.prefixValue : ValueTrie → Int
  | .node _ pv _ _ => pv

/-- Field accessor for `leaf`. -/
def ValueTrie.leaf : ValueTrie → Bool
  | .node _ _ lf _ => lf

/-- Field accessor for `children`. -/
def ValueTrie.children : ValueTrie → List (Char × ValueTrie)
  | .node _ _ _ cs => cs

/-- NewValueTrie from value_trie.go: value 0, prefixValue 0 (Go zero value),
leaf false, empty child map. -/
def NewValueTrie : ValueTrie := .node 0 0 false []

/-- hasPrefixValue from value_trie.go: the value sequence is longer than the
string's rune count. -/
def hasPrefixValue (s : List Char) (v : List Int) : Bool := v.length > s.length

/-- addRunes from value_trie.go.  One value is received from the stream per
rune (`val := <-iter`), even when the child already exists (in which case it is
discarded — first write wins).  A child created for the first time stores the
value; when `hasPrefix` is set (only ever at the first rune) the first received
value becomes the new child's `prefixValue` and a second receive supplies its
`value`. -/
def ValueTrie.addRunes : ValueTrie → List Char → List Int → Nat → Bool → ValueTrie
  | .node v pv _ cs, [], _, _, _ => .node v pv true cs
  | .node v pv lf cs, c :: rest, vals, i, hasPrefix =>
    match lookupKey c cs with
    | some n =>
      .node v pv lf (updateKey cs c (ValueTrie.addRunes n rest vals (i + 1) false))
    | none =>
      if hasPrefix then
        let child : ValueTrie := .node (vals.getD (i + 1) 0) (vals.getD i 0) false []
        .node v pv lf (updateKey cs c (ValueTrie.addRunes child rest vals (i + 2) false))
      else
        let child : ValueTrie := .node (vals.getD i 0) 0 false []
        .node v pv lf (updateKey cs c (ValueTrie.addRunes child rest vals (i + 1) false))

/-- Add from value_trie.go: no-op on the empty string, otherwise addRunes with
the value stream and the hasPrefixValue flag. -/
def ValueTrie.Add (t : ValueTrie) (s : String) (v : List Int) : ValueTrie :=
  if s.toList = [] then t
  else t.addRunes s.toList v 0 (hasPrefixValue s.toList v)

/-- Value of a digit rune relative to the rune for the character 0
(`rune - rune0` in the source). -/
def digitVal (c : Char) : Int := (c.toNat : Int) - 48

/-- patternHasPrefixValue from value_trie.go: the first rune of the pattern is
a digit. -/
def patternHasPrefixValue : List Char → Bool
  | [] => false
  | c :: _ => c.isDigit

/-- Value stream produced by the goroutine inside AddPatternString
(value_trie.go), scanning the pattern left to right.  A digit at position 0 is
pushed (the prefix value); any other digit is skipped; a non-digit character
pushes the following digit's value, or 0 when the next code point is not a
digit — except that the source's `pos < strLen-1` guard pushes nothing at all
for the final character (the consumer then reads the closed channel's zero).
The source's positions are byte offsets; on the ASCII patterns exercised here
they coincide with code-point offsets, which is what this definition scans.
`first` tracks `pos == 0`. -/
def patternValues : List Char → Bool → List Int
  | [], _ => []
  | c :: rest, first =>
    if c.isDigit then
      (if first then [digitVal c] else []) ++ patternValues rest false
    else
      match rest with
      | [] => []
      | d :: _ => (if d.isDigit then [digitVal d] else [0]) ++ patternValues rest false

/-- AddPatternString from value_trie.go: strip the digits out of the pattern
(`strings.Map` returning -1 for digits) and insert the remaining characters
with the value stream produced by `patternValues`.  The source has no
empty-string guard here: it calls addRunes directly. -/
def ValueTrie.AddPatternString (t : ValueTrie) (s : String) : ValueTrie :=
  let cs := s.toList
  t.addRunes (cs.filter (fun c => !c.isDigit)) (patternValues cs true) 0
    (patternHasPrefixValue cs)

/-- removeRunes from value_trie.go: identical to the membership trie version. -/
def ValueTrie.removeRunes : ValueTrie → List Char → ValueTrie × Bool
  | .node v pv _ cs, [] => (.node v pv false cs, cs.isEmpty)
  | .node v pv lf cs, c :: rest =>
    match lookupKey c cs with
    | some child =>
      let res := ValueTrie.removeRunes child rest
      let cs2 := if res.2 then eraseKey c cs else updateKey cs c res.1
      (.node v pv lf cs2, cs2.isEmpty)
    | none => (.node v pv lf cs, cs.isEmpty)

/-- Remove from value_trie.go (the rewritten trie). -/
def ValueTrie.Remove (t : ValueTrie) (s : String) : ValueTrie :=
  if s.toList = [] then t else (t.removeRunes s.toList).1

/-- includes from value_trie.go: identical to the membership trie version. -/
def ValueTrie.includes : ValueTrie → List Char → Bool
  | t, [] => t.leaf
  | t, c :: rest =>
    match lookupKey c t.children with
    | none => false
    | some child => ValueTrie.includes child rest

/-- Contains from value_trie.go: false on the empty string, otherwise includes. -/
def ValueTrie.Contains (t : ValueTrie) (s : String) : Bool :=
  if s.toList = [] then false else t.includes s.toList

/-- getValues from value_trie.go: walk the path for the runes; at each step,
push the child's prefixValue when nonzero, then the child's value; the boolean
result is the leaf flag at the end of a complete walk and false when a rune has
no child (with the values accumulated so far still returned). -/
def ValueTrie.getValues : ValueTrie → List Char → List Int × Bool
  | p, [] => ([], p.leaf)
  | p, c :: rest =>
    match lookupKey c p.children with
    | none => ([], false)
    | some child =>
      let res := ValueTrie.getValues child rest
      ((if child.prefixValue ≠ 0 then [child.prefixValue] else []) ++
        child.value :: res.1, res.2)

/-- ValuesForString from value_trie.go. -/
def ValueTrie.ValuesForString (t : ValueTrie) (s : String) : List Int × Bool :=
  t.getValues s.toList

/-- LongestSubstring from value_trie.go, at the rune-list level: follow the
string's runes while a child exists, accumulating prefixValue-then-value per
step, and return the consumed runes (the source returns the byte slice
`s[0:pos]`, i.e. exactly this rune prefix) and the accumulated values. -/
def ValueTrie.longestSubstringRunes : ValueTrie → List Char → List Char × List Int
  | _, [] => ([], [])
  | p, c :: rest =>
    match lookupKey c p.children with
    | none => ([], [])
    | some child =>
      let res := ValueTrie.longestSubstringRunes child rest
      (c :: res.1,
       ((if child.prefixValue ≠ 0 then [child.prefixValue] else []) ++
         child.value :: res.2))

/-- LongestSubstring from value_trie.go (string wrapper). -/
def ValueTrie.LongestSubstring (t : ValueTrie) (s : String) : String × List Int :=
  let res := t.longestSubstringRunes s.toList
  (String.mk res.1, res.2)

mutual

/-- Size from value_trie.go: number of nodes strictly below this node. -/
def ValueTrie.Size : ValueTrie → Nat
  | .node _ _ _ cs => cs.length + sizeChildrenV cs

/-- Sum of `ValueTrie.Size` over a child list. -/
def sizeChildrenV : List (Char × ValueTrie) → Nat
  | [] => 0
  | (_, t) :: rest => ValueTrie.Size t + sizeChildrenV rest

end

mutual

/-- buildMembers from value_trie.go with includeValues false: collect the
accumulated rune prefix at every leaf node, depth first, parents before
children. -/
def ValueTrie.buildMembers : ValueTrie → List Char → List (List Char)
  | .node _ _ lf cs, acc => (if lf then [acc] else []) ++ buildMembersList cs acc

/-- Child-list loop of buildMembers: descend into each child with its rune
appended to the accumulated prefix. -/
def buildMembersList : List (Char × ValueTrie) → List Char → List (List Char)
  | [], _ => []
  | (c, n) :: rest, acc =>
    ValueTrie.buildMembers n (acc ++ [c]) ++ buildMembersList rest acc

end

/-- Insert a string into a sorted list of strings (helper for the sort that
Members performs). -/
def insertSorted (s : String) : List String → List String
  | [] => [s]
  | x :: rest => if x < s then x :: insertSorted s rest else s :: x :: rest

/-- Insertion sort on strings (the source's `sort.Sort`; any comparison sort
yields the same sorted output). -/
def sortStrings : List String → List String
  | [] => []
  | x :: rest => insertSorted x (sortStrings rest)

/-- Members from value_trie.go: all leaf paths, sorted (the source sorts the
collected vector; child iteration order is a map's). -/
def ValueTrie.Members (t : ValueTrie) : List String :=
  sortStrings ((t.buildMembers []).map String.mk)

/-- Modelled from the spec: the walk AllSubstrings performs from one starting
offset ("follow as far as a shared path exists and report every node passed
that is terminal, along with the string consumed to reach it").  The repository
has no AllSubstrings implementation under src/ — only its tests — so this is
built from the spec's words.  Matches come out in increasing length order. -/
def Trie.matchesFrom : Trie → List Char → List Char → List (List Char)
  | _, [], _ => []
  | t, c :: rest, consumed =>
    match lookupKey c t.children with
    | none => []
    | some n =>
      (if n.leaf then [consumed ++ [c]] else []) ++
        Trie.matchesFrom n rest (consumed ++ [c])

/-- All suffixes of a rune list, in order of increasing start offset. -/
def tailsFrom : List Char → List (List Char)
  | [] => [[]]
  | c :: rest => (c :: rest) :: tailsFrom rest

/-- Modelled from the spec: AllSubstrings "scans every starting offset of `s`
left to right" and reports from each offset every trie member that is a prefix
of the remaining suffix, results "concatenated in the order: increasing start
offset, then increasing match length within an offset".  The implementation is
absent from src/ (only trie_test.go exercises it). -/
def Trie.AllSubstrings (t : Trie) (s : String) : List String :=
  ((tailsFrom s.toList).map (fun suf => (t.matchesFrom suf []).map String.mk)).flatten

/-- Node reached by walking a rune path from this node, when the whole path
exists (spec-side vocabulary: "the path fully exists"). -/
def Trie.findPath : Trie → List Char → Option Trie
  | t, [] => some t
  | t, c :: rest =>
    match lookupKey c t.children with
    | none => none
    | some n => Trie.findPath n rest

/-- Node reached by walking a rune path from this node, when the whole path
exists. -/
def ValueTrie.findPath : ValueTrie → List Char → Option ValueTrie
  | t, [] => some t
  | t, c :: rest =>
    match lookupKey c t.children with
    | none => none
    | some n => ValueTrie.findPath n rest

/-- Spec-side variant of getValues that never emits a prefix value: each step
contributes the child's own value only.  Used to state that the real walk can
emit a prefix value only at its first step. -/
def ValueTrie.getValuesPlain : ValueTrie → List Char → List Int × Bool
  | p, [] => ([], p.leaf)
  | p, c :: rest =>
    match lookupKey c p.children with
    | none => ([], false)
    | some child =>
      let res := ValueTrie.getValuesPlain child rest
      (child.value :: res.1, res.2)

/-- Spec-side variant of longestSubstringRunes without prefix-value emission. -/
def ValueTrie.longestPlainRunes : ValueTrie → List Char → List Char × List Int
  | _, [] => ([], [])
  | p, c :: rest =>
    match lookupKey c p.children with
    | none => ([], [])
    | some child =>
      let res := ValueTrie.longestPlainRunes child rest
      (c :: res.1, child.value :: res.2)

/-- Prefix-value contribution of the first step of a value walk: the first
child's prefixValue when that child exists and its prefixValue is nonzero. -/
def ValueTrie.pvHead (t : ValueTrie) : List Char → List Int
  | [] => []
  | c :: _ =>
    match lookupKey c t.children with
    | none => []
    | some child => if child.prefixValue ≠ 0 then [child.prefixValue] else []

mutual

/-- Every node of this subtree, itself included, has prefixValue 0. -/
def ValueTrie.allZeroPV : ValueTrie → Bool
  | .node _ pv _ cs => (pv == 0) && allZeroPVList cs

/-- `ValueTrie.allZeroPV` over a child list. -/
def allZeroPVList : List (Char × ValueTrie) → Bool
  | [] => true
  | (_, n) :: rest => ValueTrie.allZeroPV n && allZeroPVList rest

end

/-- Second-level check: every grandchild subtree of this child list is
prefixValue-free. -/
def belowOK : List (Char × ValueTrie) → Bool
  | [] => true
  | (_, n) :: rest => allZeroPVList n.children && belowOK rest

/-- Claim C9's invariant: the root carries no prefixValue and every node
strictly below the first level (i.e. not a direct child of the root) has
prefixValue 0. -/
def ValueTrie.inv (t : ValueTrie) : Bool :=
  (t.prefixValue == 0) && belowOK t.children

/-! Helper lemmas about the association-list child maps. -/

theorem lookupKey_updateKey_self {β : Type} (cs : List (Char × β)) (c : Char) (b : β) :
    lookupKey c (updateKey cs c b) = some b := by
  induction cs with
  | nil => simp [updateKey, lookupKey]
  | cons kv rest ih =>
    obtain ⟨k, v⟩ := kv
    by_cases h : k = c
    · simp [updateKey, h, lookupKey]
    · simp [updateKey, h, lookupKey, ih]

theorem lookupKey_updateKey_ne {β : Type} (cs : List (Char × β)) (c d : Char) (b : β)
    (h : d ≠ c) : lookupKey d (updateKey cs c b) = lookupKey d cs := by
  have hcd : ¬(c = d) := fun hh => h hh.symm
  induction cs with
  | nil =>
    simp only [updateKey, lookupKey]
    rw [if_neg hcd]
  | cons kv rest ih =>
    obtain ⟨k, v⟩ := kv
    by_cases hk : k = c
    · subst hk
      simp only [updateKey, if_pos rfl, lookupKey]
      rw [if_neg hcd, if_neg hcd]
    · simp only [updateKey, if_neg hk, lookupKey, ih]

theorem updateKey_updateKey_self {β : Type} (cs : List (Char × β)) (c : Char) (b b' : β) :
    updateKey (updateKey cs c b) c b' = updateKey cs c b' := by
  induction cs with
  | nil => simp [updateKey]
  | cons kv rest ih =>
    obtain ⟨k, v⟩ := kv
    by_cases h : k = c
    · simp [updateKey, h]
    · simp [updateKey, h, ih]

/-- Whatever the value stream, addRunes leaves the inserted rune path present
and its final node a leaf, so `includes` finds it. -/
theorem ValueTrie.includes_addRunes (cs : List Char) :
    ∀ (t : ValueTrie) (vals : List Int) (i : Nat) (hp : Bool),
      (t.addRunes cs vals i hp).includes cs = true := by
  induction cs with
  | nil =>
    intro t vals i hp
    cases t with
    | node v pv lf ch => simp [ValueTrie.addRunes, ValueTrie.includes, ValueTrie.leaf]
  | cons c rest ih =>
    intro t vals i hp
    cases t with
    | node v pv lf ch =>
      simp only [ValueTrie.addRunes]
      cases h : lookupKey c ch with
      | some n =>
        simp [ValueTrie.includes, ValueTrie.children, lookupKey_updateKey_self, ih]
      | none =>
        cases hp <;>
          simp [ValueTrie.includes, ValueTrie.children, lookupKey_updateKey_self, ih]

/-- Claim C1 (code bug): the source prunes any child that became childless
during removal, without checking its terminal flag, so removing a proper
extension of a member destroys that member.  With members "ab" and "abc",
`Remove("abc")` leaves `Contains("ab")` false — in both trie kinds. -/
theorem remove_prunes_terminal_member_bug :
    ((NewTrie.Add "ab").Add "abc").Contains "ab" = true ∧
    ((((NewTrie.Add "ab").Add "abc").Remove "abc").Contains "ab") = false ∧
    (((NewValueTrie.Add "ab" [1, 2]).Add "abc" [1, 2, 3]).Contains "ab") = true ∧
    ((((NewValueTrie.Add "ab" [1, 2]).Add "abc" [1, 2, 3]).Remove "abc").Contains "ab")
      = false :=
  ⟨rfl, rfl, rfl, rfl⟩

/-- Claim C2 (counterexample): `Add("ab", [1,2,3,4])` — a value sequence whose
length 4 is neither 2 nor 3 — raises no error: the string is silently inserted
(Contains true) and the stored values are misaligned (the walk yields [1,2,3]
with ok = true: 1 became a prefix value, 4 was dropped). -/
theorem Add_mismatched_length_inserts_silently :
    (NewValueTrie.Add "ab" [1, 2, 3, 4]).Contains "ab" = true ∧
    (NewValueTrie.Add "ab" [1, 2, 3, 4]).ValuesForString "ab" = ([1, 2, 3], true) :=
  ⟨rfl, rfl⟩

/-- Claim C2 (amended): Add performs no length validation at all.  For every
trie, every nonempty string and every value sequence — in particular one whose
length is neither `len(s)` nor `len(s)+1` — Add silently inserts the string,
reading values missing from the sequence as 0 and ignoring extras. -/
theorem Add_mismatched_length_no_error (t : ValueTrie) (s : String) (v : List Int)
    (hne : s.toList ≠ [])
    (_hlen : v.length ≠ s.toList.length) (_hlen1 : v.length ≠ s.toList.length + 1) :
    (t.Add s v).Contains s = true := by
  unfold ValueTrie.Add ValueTrie.Contains
  rw [if_neg hne, if_neg hne]
  exact ValueTrie.includes_addRunes s.toList t v 0 (hasPrefixValue s.toList v)

/-- Claim C2 amended, witness: Add("ab", [1,2,3,4,5]) — length 5, neither 2
nor 3 — silently inserts "ab". -/
theorem Add_mismatched_length_no_error_witness :
    (NewValueTrie.Add "ab" [1, 2, 3, 4, 5]).Contains "ab" = true :=
  Add_mismatched_length_no_error NewValueTrie "ab" [1, 2, 3, 4, 5]
    (by decide) (by decide) (by decide)

/-- Claim C3: `AddPatternString("hy3phe2n5a4t2io2n")` on an empty value trie
yields exactly the member "hyphenation" and `ValuesForString("hyphenation")`
returns ([0,3,0,0,2,5,4,2,0,2,0], true), per the left-to-right decoding rule. -/
theorem AddPatternString_hyphenation_decodes :
    (NewValueTrie.AddPatternString "hy3phe2n5a4t2io2n").Members = ["hyphenation"] ∧
    (NewValueTrie.AddPatternString "hy3phe2n5a4t2io2n").ValuesForString "hyphenation"
      = ([0, 3, 0, 0, 2, 5, 4, 2, 0, 2, 0], true) :=
  ⟨rfl, rfl⟩

/-- Claim C4: `AddPatternString("5emnix")` on an empty value trie yields
exactly the member "emnix" (the leading digit 5 becomes the first node's
prefix value), and `ValuesForString("emnix")` returns ([5,0,0,0,0,0], true)
with the prefix value as the first emitted element. -/
theorem AddPatternString_leading_digit_emnix :
    (NewValueTrie.AddPatternString "5emnix").Members = ["emnix"] ∧
    (NewValueTrie.AddPatternString "5emnix").ValuesForString "emnix"
      = ([5, 0, 0, 0, 0, 0], true) :=
  ⟨rfl, rfl⟩

/-- The walk performed by LongestSubstring consumes a prefix of the input and
consumes all of it exactly when the whole path exists in the trie. -/
theorem ValueTrie.longestSubstringRunes_spec (cs : List Char) :
    ∀ t : ValueTrie,
      (∃ r, (t.longestSubstringRunes cs).1 ++ r = cs) ∧
      ((t.findPath cs).isSome = true → (t.longestSubstringRunes cs).1 = cs) := by
  induction cs with
  | nil => intro t; exact ⟨⟨[], rfl⟩, fun _ => rfl⟩
  | cons c rest ih =>
    intro t
    cases h : lookupKey c t.children with
    | none =>
      refine ⟨⟨c :: rest, ?_⟩, ?_⟩
      · simp [ValueTrie.longestSubstringRunes, h]
      · intro hs
        rw [ValueTrie.findPath, h] at hs
        cases hs
    | some child =>
      obtain ⟨⟨r, hr⟩, hfull⟩ := ih child
      refine ⟨⟨r, ?_⟩, ?_⟩
      · simp only [ValueTrie.longestSubstringRunes, h, List.cons_append]
        rw [hr]
      · intro hs
        rw [ValueTrie.findPath, h] at hs
        simp only [ValueTrie.longestSubstringRunes, h]
        rw [hfull hs]

/-- Claim C6: for every value trie and string, LongestSubstring returns a
prefix of the input (hence of length at most the input's), and returns the
input itself whenever the whole string's path exists in the trie — with no
requirement that the stopping node be terminal. -/
theorem LongestSubstring_returns_initial_segment (t : ValueTrie) (s : String) :
    (∃ r, (t.LongestSubstring s).1.toList ++ r = s.toList) ∧
    (t.LongestSubstring s).1.toList.length ≤ s.toList.length ∧
    ((t.findPath s.toList).isSome = true → (t.LongestSubstring s).1 = s) := by
  obtain ⟨⟨r, hr⟩, hfull⟩ := ValueTrie.longestSubstringRunes_spec s.toList t
  have hconv : (t.LongestSubstring s).1.toList = (t.longestSubstringRunes s.toList).1 := rfl
  refine ⟨⟨r, hr⟩, ?_, ?_⟩
  · calc (t.LongestSubstring s).1.toList.length
        ≤ (t.LongestSubstring s).1.toList.length + r.length := Nat.le_add_right _ _
      _ = s.toList.length := by rw [hconv, ← List.length_append, hr]
  · intro hs
    apply String.ext
    show (t.LongestSubstring s).1.toList = s.toList
    exact hfull hs

/-- Claim C6, witness: with "ab" inserted, the whole path for "ab" exists, so
LongestSubstring("ab") returns "ab" itself. -/
theorem LongestSubstring_returns_initial_segment_witness :
    ((NewValueTrie.Add "ab" [0, 0]).LongestSubstring "ab").1 = "ab" :=
  (LongestSubstring_returns_initial_segment (NewValueTrie.Add "ab" [0, 0]) "ab").2.2 rfl

/-- includes reports exactly: the path exists and ends at a leaf node. -/
theorem Trie.includes_iff (cs : List Char) :
    ∀ t : Trie, (t.includes cs = true ↔ ∃ n, t.findPath cs = some n ∧ n.leaf = true) := by
  induction cs with
  | nil => intro t; simp [Trie.includes, Trie.findPath]
  | cons c rest ih =>
    intro t
    cases h : lookupKey c t.children with
    | none => simp [Trie.includes, Trie.findPath, h]
    | some n => simp [Trie.includes, Trie.findPath, h, ih n]

/-- Claim C7: Contains(s) is false for empty s and otherwise true exactly when
the full path for s exists and the final node is terminal; in particular, with
only "hyphenation" inserted, Contains("hyph") is false even though the path
exists. -/
theorem Contains_iff_terminal_path :
    (∀ (t : Trie) (s : String), t.Contains s = true ↔
      (s.toList ≠ [] ∧ ∃ n, t.findPath s.toList = some n ∧ n.leaf = true)) ∧
    (NewTrie.Add "hyphenation").Contains "hyph" = false := by
  constructor
  · intro t s
    unfold Trie.Contains
    by_cases he : s.toList = []
    · rw [if_pos he]
      constructor
      · intro hcontr
        exact (Bool.false_ne_true hcontr).elim
      · rintro ⟨hne, -⟩
        exact (hne he).elim
    · rw [if_neg he]
      constructor
      · intro h
        exact ⟨he, (Trie.includes_iff s.toList t).mp h⟩
      · rintro ⟨-, hx⟩
        exact (Trie.includes_iff s.toList t).mpr hx
  · rfl

/-- Claim C7, witness: both directions at a concrete input — with "ab"
inserted, Contains("ab") is true via the path/terminal characterization. -/
theorem Contains_iff_terminal_path_witness :
    (NewTrie.Add "ab").Contains "ab" = true :=
  (Contains_iff_terminal_path.1 (NewTrie.Add "ab") "ab").mpr
    ⟨by decide, Trie.node true [], rfl, rfl⟩

/-- addRunes is idempotent on the nose: re-inserting an existing rune path
rewrites every node along it with the values it already has. -/
theorem Trie.addRunes_idem (l : List Char) :
    ∀ t : Trie, (t.addRunes l).addRunes l = t.addRunes l := by
  induction l with
  | nil =>
    intro t
    cases t with
    | node lf cs => rfl
  | cons c rest ih =>
    intro t
    cases t with
    | node lf cs =>
      cases h : lookupKey c cs with
      | some n =>
        simp only [Trie.addRunes, h, lookupKey_updateKey_self, updateKey_updateKey_self, ih]
      | none =>
        simp only [Trie.addRunes, h, lookupKey_updateKey_self, updateKey_updateKey_self, ih]

/-- Claim C8: Add is idempotent — a second Add of the same string changes
neither Size nor Contains relative to their values after the first Add (indeed
the trie itself is unchanged). -/
theorem Add_idempotent_size_contains (t : Trie) (s : String) :
    ((t.Add s).Add s).Size = (t.Add s).Size ∧
    ((t.Add s).Add s).Contains s = (t.Add s).Contains s := by
  have h : (t.Add s).Add s = t.Add s := by
    unfold Trie.Add
    by_cases he : s.toList = []
    · rw [if_pos he, if_pos he]
    · rw [if_neg he, if_neg he]
      exact Trie.addRunes_idem s.toList t
  rw [h]
  exact ⟨rfl, rfl⟩

/-- Adding a path never hides an existing member path. -/
theorem Trie.includes_addRunes_mono (l : List Char) :
    ∀ (t : Trie) (u : List Char), t.includes u = true → (t.addRunes l).includes u = true := by
  induction l with
  | nil =>
    intro t u h
    cases t with
    | node lf cs =>
      cases u with
      | nil => rfl
      | cons d us => exact h
  | cons c rest ih =>
    intro t u h
    cases t with
    | node lf cs =>
      cases u with
      | nil =>
        cases hch : lookupKey c cs <;>
          · simp only [Trie.addRunes, hch]
            exact h
      | cons d us =>
        simp only [Trie.includes, Trie.children] at h
        cases hd : lookupKey d cs with
        | none =>
          rw [hd] at h
          cases h
        | some m =>
          rw [hd] at h
          by_cases hdc : d = c
          · subst hdc
            simp only [Trie.addRunes, hd, Trie.includes, Trie.children,
              lookupKey_updateKey_self]
            exact ih m us h
          · cases hc : lookupKey c cs with
            | some n =>
              simp only [Trie.addRunes, hc, Trie.includes, Trie.children]
              rw [lookupKey_updateKey_ne cs c d _ hdc, hd]
              exact h
            | none =>
              simp only [Trie.addRunes, hc, Trie.includes, Trie.children]
              rw [lookupKey_updateKey_ne cs c d _ hdc, hd]
              exact h

/-- Replacing a key's entry keeps the child-map length. -/
theorem updateKey_length_some {β : Type} (cs : List (Char × β)) (c : Char) (n b : β)
    (h : lookupKey c cs = some n) : (updateKey cs c b).length = cs.length := by
  induction cs with
  | nil => cases h
  | cons kv rest ih =>
    obtain ⟨k, v⟩ := kv
    by_cases hk : k = c
    · simp [updateKey, hk]
    · rw [lookupKey, if_neg hk] at h
      simp [updateKey, hk, ih h]

/-- Adding a fresh key grows the child-map length by one. -/
theorem updateKey_length_none {β : Type} (cs : List (Char × β)) (c : Char) (b : β)
    (h : lookupKey c cs = none) : (updateKey cs c b).length = cs.length + 1 := by
  induction cs with
  | nil => rfl
  | cons kv rest ih =>
    obtain ⟨k, v⟩ := kv
    rw [lookupKey] at h
    by_cases hk : k = c
    · rw [if_pos hk] at h
      cases h
    · rw [if_neg hk] at h
      simp [updateKey, hk, ih h]

/-- Replacing a child by a larger one cannot shrink the summed sizes. -/
theorem sizeChildren_updateKey_some (cs : List (Char × Trie)) (c : Char) (n x : Trie)
    (h : lookupKey c cs = some n) (hle : n.Size ≤ x.Size) :
    sizeChildren cs ≤ sizeChildren (updateKey cs c x) := by
  induction cs with
  | nil => cases h
  | cons kv rest ih =>
    obtain ⟨k, v⟩ := kv
    rw [lookupKey] at h
    by_cases hk : k = c
    · rw [if_pos hk] at h
      injection h with h'
      subst h'
      simp only [updateKey, if_pos hk, sizeChildren]
      omega
    · rw [if_neg hk] at h
      simp only [updateKey, if_neg hk, sizeChildren]
      have := ih h
      omega

/-- Appending a fresh child adds its size to the summed sizes. -/
theorem sizeChildren_updateKey_none (cs : List (Char × Trie)) (c : Char) (x : Trie)
    (h : lookupKey c cs = none) :
    sizeChildren (updateKey cs c x) = sizeChildren cs + x.Size := by
  induction cs with
  | nil => simp [updateKey, sizeChildren]
  | cons kv rest ih =>
    obtain ⟨k, v⟩ := kv
    rw [lookupKey] at h
    by_cases hk : k = c
    · rw [if_pos hk] at h
      cases h
    · rw [if_neg hk] at h
      simp only [updateKey, if_neg hk, sizeChildren, ih h]
      omega

/-- addRunes only ever creates nodes: the node count never decreases. -/
theorem Trie.size_le_addRunes (l : List Char) :
    ∀ t : Trie, t.Size ≤ (t.addRunes l).Size := by
  induction l with
  | nil =>
    intro t
    cases t with
    | node lf cs => exact Nat.le_refl _
  | cons c rest ih =>
    intro t
    cases t with
    | node lf cs =>
      cases hc : lookupKey c cs with
      | some n =>
        simp only [Trie.addRunes, hc, Trie.Size]
        have h1 := updateKey_length_some cs c n (Trie.addRunes n rest) hc
        have h2 := sizeChildren_updateKey_some cs c n (Trie.addRunes n rest) hc (ih n)
        omega
      | none =>
        simp only [Trie.addRunes, hc, Trie.Size]
        have h1 := updateKey_length_none cs c (Trie.addRunes NewTrie rest) hc
        have h2 := sizeChildren_updateKey_none cs c (Trie.addRunes NewTrie rest) hc
        omega

/-- Adding a path to a value trie never hides an existing member path. -/
theorem includesV_addRunes_mono (l : List Char) :
    ∀ (t : ValueTrie) (u : List Char) (vals : List Int) (i : Nat) (hp : Bool),
      t.includes u = true → (t.addRunes l vals i hp).includes u = true := by
  induction l with
  | nil =>
    intro t u vals i hp h
    cases t with
    | node v pv lf cs =>
      cases u with
      | nil => rfl
      | cons d us => exact h
  | cons c rest ih =>
    intro t u vals i hp h
    cases t with
    | node v pv lf cs =>
      cases u with
      | nil =>
        cases hch : lookupKey c cs with
        | some n =>
          simp only [ValueTrie.addRunes, hch]
          exact h
        | none =>
          simp only [ValueTrie.addRunes, hch]
          split <;> exact h
      | cons d us =>
        simp only [ValueTrie.includes, ValueTrie.children] at h
        cases hd : lookupKey d cs with
        | none =>
          rw [hd] at h
          cases h
        | some m =>
          rw [hd] at h
          by_cases hdc : d = c
          · subst hdc
            simp only [ValueTrie.addRunes, hd, ValueTrie.includes, ValueTrie.children,
              lookupKey_updateKey_self]
            exact ih m us vals (i + 1) false h
          · cases hc : lookupKey c cs with
            | some n =>
              simp only [ValueTrie.addRunes, hc, ValueTrie.includes, ValueTrie.children]
              rw [lookupKey_updateKey_ne cs c d _ hdc, hd]
              exact h
            | none =>
              simp only [ValueTrie.addRunes, hc]
              split <;>
              · simp only [ValueTrie.includes, ValueTrie.children]
                rw [lookupKey_updateKey_ne cs c d _ hdc, hd]
                exact h

/-- Replacing a child by a larger one cannot shrink the summed sizes
(value-trie version). -/
theorem sizeChildrenV_updateKey_some (cs : List (Char × ValueTrie)) (c : Char)
    (n x : ValueTrie) (h : lookupKey c cs = some n) (hle : n.Size ≤ x.Size) :
    sizeChildrenV cs ≤ sizeChildrenV (updateKey cs c x) := by
  induction cs with
  | nil => cases h
  | cons kv rest ih =>
    obtain ⟨k, v⟩ := kv
    rw [lookupKey] at h
    by_cases hk : k = c
    · rw [if_pos hk] at h
      injection h with h'
      subst h'
      simp only [updateKey, if_pos hk, sizeChildrenV]
      omega
    · rw [if_neg hk] at h
      simp only [updateKey, if_neg hk, sizeChildrenV]
      have := ih h
      omega

/-- Appending a fresh child adds its size to the summed sizes (value-trie
version). -/
theorem sizeChildrenV_updateKey_none (cs : List (Char × ValueTrie)) (c : Char)
    (x : ValueTrie) (h : lookupKey c cs = none) :
    sizeChildrenV (updateKey cs c x) = sizeChildrenV cs + x.Size := by
  induction cs with
  | nil => simp [updateKey, sizeChildrenV]
  | cons kv rest ih =>
    obtain ⟨k, v⟩ := kv
    rw [lookupKey] at h
    by_cases hk : k = c
    · rw [if_pos hk] at h
      cases h
    · rw [if_neg hk] at h
      simp only [updateKey, if_neg hk, sizeChildrenV, ih h]
      omega

/-- Value-trie addRunes only ever creates nodes: the node count never
decreases. -/
theorem sizeV_le_addRunes (l : List Char) :
    ∀ (t : ValueTrie) (vals : List Int) (i : Nat) (hp : Bool),
      t.Size ≤ (t.addRunes l vals i hp).Size := by
  induction l with
  | nil =>
    intro t vals i hp
    cases t with
    | node v pv lf cs => exact Nat.le_refl _
  | cons c rest ih =>
    intro t vals i hp
    cases t with
    | node v pv lf cs =>
      cases hc : lookupKey c cs with
      | some n =>
        simp only [ValueTrie.addRunes, hc, ValueTrie.Size]
        have h1 := updateKey_length_some cs c n
          (ValueTrie.addRunes n rest vals (i + 1) false) hc
        have h2 := sizeChildrenV_updateKey_some cs c n
          (ValueTrie.addRunes n rest vals (i + 1) false) hc (ih n vals (i + 1) false)
        omega
      | none =>
        simp only [ValueTrie.addRunes, hc]
        split
        · simp only [ValueTrie.Size]
          have h1 := updateKey_length_none cs c
            (ValueTrie.addRunes (.node (vals.getD (i + 1) 0) (vals.getD i 0) false [])
              rest vals (i + 2) false) hc
          have h2 := sizeChildrenV_updateKey_none cs c
            (ValueTrie.addRunes (.node (vals.getD (i + 1) 0) (vals.getD i 0) false [])
              rest vals (i + 2) false) hc
          omega
        · simp only [ValueTrie.Size]
          have h1 := updateKey_length_none cs c
            (ValueTrie.addRunes (.node (vals.getD i 0) 0 false []) rest vals (i + 1) false) hc
          have h2 := sizeChildrenV_updateKey_none cs c
            (ValueTrie.addRunes (.node (vals.getD i 0) 0 false []) rest vals (i + 1) false) hc
          omega

/-- Claim C10: Add is monotone and non-destructive, in both trie kinds — a
string contained before Add(s) is still contained after, and Size never
decreases across Add. -/
theorem Add_monotone_contains_size (t : Trie) (tv : ValueTrie) (s u : String)
    (v : List Int) :
    (t.Contains u = true → (t.Add s).Contains u = true) ∧
    t.Size ≤ (t.Add s).Size ∧
    (tv.Contains u = true → (tv.Add s v).Contains u = true) ∧
    tv.Size ≤ (tv.Add s v).Size := by
  refine ⟨?_, ?_, ?_, ?_⟩
  · intro h
    unfold Trie.Add
    by_cases he : s.toList = []
    · rw [if_pos he]
      exact h
    · rw [if_neg he]
      unfold Trie.Contains at h ⊢
      by_cases hu : u.toList = []
      · rw [if_pos hu] at h
        cases h
      · rw [if_neg hu] at h ⊢
        exact Trie.includes_addRunes_mono s.toList t u.toList h
  · unfold Trie.Add
    by_cases he : s.toList = []
    · rw [if_pos he]
    · rw [if_neg he]
      exact Trie.size_le_addRunes s.toList t
  · intro h
    unfold ValueTrie.Add
    by_cases he : s.toList = []
    · rw [if_pos he]
      exact h
    · rw [if_neg he]
      unfold ValueTrie.Contains at h ⊢
      by_cases hu : u.toList = []
      · rw [if_pos hu] at h
        cases h
      · rw [if_neg hu] at h ⊢
        exact includesV_addRunes_mono s.toList tv u.toList v 0 _ h
  · unfold ValueTrie.Add
    by_cases he : s.toList = []
    · rw [if_pos he]
    · rw [if_neg he]
      exact sizeV_le_addRunes s.toList tv v 0 _

/-- Claim C10, witness: "a" stays contained after adding "b", in both trie
kinds. -/
theorem Add_monotone_contains_size_witness :
    ((NewTrie.Add "a").Add "b").Contains "a" = true ∧
    ((NewValueTrie.Add "a" [1]).Add "b" [2]).Contains "a" = true :=
  ⟨(Add_monotone_contains_size (NewTrie.Add "a") (NewValueTrie.Add "a" [1]) "b" "a" [2]).1
      rfl,
   (Add_monotone_contains_size (NewTrie.Add "a") (NewValueTrie.Add "a" [1]) "b" "a"
      [2]).2.2.1 rfl⟩

/-- A child found in a prefixValue-free child list is prefixValue-free. -/
theorem allZeroPVList_lookup (cs : List (Char × ValueTrie)) (c : Char) (n : ValueTrie)
    (hall : allZeroPVList cs = true) (h : lookupKey c cs = some n) :
    n.allZeroPV = true := by
  induction cs with
  | nil => cases h
  | cons kv rest ih =>
    obtain ⟨k, v⟩ := kv
    simp only [allZeroPVList, Bool.and_eq_true] at hall
    rw [lookupKey] at h
    by_cases hk : k = c
    · rw [if_pos hk] at h
      injection h with h'
      subst h'
      exact hall.1
    · rw [if_neg hk] at h
      exact ih hall.2 h

/-- Updating a prefixValue-free child list with a prefixValue-free child keeps
it prefixValue-free. -/
theorem allZeroPVList_updateKey (cs : List (Char × ValueTrie)) (c : Char) (x : ValueTrie)
    (hall : allZeroPVList cs = true) (hx : x.allZeroPV = true) :
    allZeroPVList (updateKey cs c x) = true := by
  induction cs with
  | nil => simp [updateKey, allZeroPVList, hx]
  | cons kv rest ih =>
    obtain ⟨k, v⟩ := kv
    simp only [allZeroPVList, Bool.and_eq_true] at hall
    by_cases hk : k = c
    · simp [updateKey, hk, allZeroPVList, hx, hall.2]
    · simp [updateKey, hk, allZeroPVList, hall.1, ih hall.2]

/-- Deleting from a prefixValue-free child list keeps it prefixValue-free. -/
theorem allZeroPVList_eraseKey (cs : List (Char × ValueTrie)) (c : Char)
    (hall : allZeroPVList cs = true) : allZeroPVList (eraseKey c cs) = true := by
  induction cs with
  | nil => exact hall
  | cons kv rest ih =>
    obtain ⟨k, v⟩ := kv
    simp only [allZeroPVList, Bool.and_eq_true] at hall
    by_cases hk : k = c
    · simp [eraseKey, hk, hall.2]
    · simp [eraseKey, hk, allZeroPVList, hall.1, ih hall.2]

/-- addRunes with hasPrefix false (every call below the first rune) keeps a
prefixValue-free subtree prefixValue-free: a fresh child's prefixValue is the
Go zero value 0. -/
theorem allZeroPV_addRunes (l : List Char) :
    ∀ (t : ValueTrie) (vals : List Int) (i : Nat),
      t.allZeroPV = true → (t.addRunes l vals i false).allZeroPV = true := by
  induction l with
  | nil =>
    intro t vals i h
    cases t with
    | node v pv lf cs => exact h
  | cons c rest ih =>
    intro t vals i h
    cases t with
    | node v pv lf cs =>
      simp only [ValueTrie.allZeroPV, Bool.and_eq_true] at h
      cases hc : lookupKey c cs with
      | some n =>
        simp only [ValueTrie.addRunes, hc, ValueTrie.allZeroPV, Bool.and_eq_true]
        exact ⟨h.1, allZeroPVList_updateKey cs c _ h.2
          (ih n vals (i + 1) (allZeroPVList_lookup cs c n h.2 hc))⟩
      | none =>
        simp only [ValueTrie.addRunes, hc, Bool.false_eq_true, if_false,
          ValueTrie.allZeroPV, Bool.and_eq_true]
        refine ⟨h.1, allZeroPVList_updateKey cs c _ h.2 (ih _ vals (i + 1) ?_)⟩
        rfl

/-- addRunes with hasPrefix false keeps a node's children prefixValue-free. -/
theorem childrenAllZero_addRunes (l : List Char) (t : ValueTrie) (vals : List Int)
    (i : Nat) (h : allZeroPVList t.children = true) :
    allZeroPVList (t.addRunes l vals i false).children = true := by
  cases t with
  | node v pv lf cs =>
    cases l with
    | nil => exact h
    | cons c rest =>
      cases hc : lookupKey c cs with
      | some n =>
        simp only [ValueTrie.addRunes, hc, ValueTrie.children]
        exact allZeroPVList_updateKey cs c _ h
          (allZeroPV_addRunes rest n vals (i + 1) (allZeroPVList_lookup cs c n h hc))
      | none =>
        simp only [ValueTrie.addRunes, hc, Bool.false_eq_true, if_false, ValueTrie.children]
        exact allZeroPVList_updateKey cs c _ h (allZeroPV_addRunes rest _ vals (i + 1) rfl)

/-- A child found in a belowOK child list has prefixValue-free children. -/
theorem belowOK_lookup (cs : List (Char × ValueTrie)) (c : Char) (n : ValueTrie)
    (hall : belowOK cs = true) (h : lookupKey c cs = some n) :
    allZeroPVList n.children = true := by
  induction cs with
  | nil => cases h
  | cons kv rest ih =>
    obtain ⟨k, v⟩ := kv
    simp only [belowOK, Bool.and_eq_true] at hall
    rw [lookupKey] at h
    by_cases hk : k = c
    · rw [if_pos hk] at h
      injection h with h'
      subst h'
      exact hall.1
    · rw [if_neg hk] at h
      exact ih hall.2 h

/-- Updating a belowOK child list with a child whose children are
prefixValue-free keeps it belowOK. -/
theorem belowOK_updateKey (cs : List (Char × ValueTrie)) (c : Char) (x : ValueTrie)
    (hall : belowOK cs = true) (hx : allZeroPVList x.children = true) :
    belowOK (updateKey cs c x) = true := by
  induction cs with
  | nil => simp [updateKey, belowOK, hx]
  | cons kv rest ih =>
    obtain ⟨k, v⟩ := kv
    simp only [belowOK, Bool.and_eq_true] at hall
    by_cases hk : k = c
    · simp [updateKey, hk, belowOK, hx, hall.2]
    · simp [updateKey, hk, belowOK, hall.1, ih hall.2]

/-- Deleting from a belowOK child list keeps it belowOK. -/
theorem belowOK_eraseKey (cs : List (Char × ValueTrie)) (c : Char)
    (hall : belowOK cs = true) : belowOK (eraseKey c cs) = true := by
  induction cs with
  | nil => exact hall
  | cons kv rest ih =>
    obtain ⟨k, v⟩ := kv
    simp only [belowOK, Bool.and_eq_true] at hall
    by_cases hk : k = c
    · simp [eraseKey, hk, hall.2]
    · simp [eraseKey, hk, belowOK, hall.1, ih hall.2]

/-- addRunes — with any hasPrefix flag — preserves claim C9's invariant: a
possibly nonzero prefixValue is written only to a fresh first-level child; all
recursive calls pass hasPrefix false. -/
theorem inv_addRunes (l : List Char) (t : ValueTrie) (vals : List Int) (i : Nat)
    (hp : Bool) (h : t.inv = true) : (t.addRunes l vals i hp).inv = true := by
  cases t with
  | node v pv lf cs =>
    simp only [ValueTrie.inv, ValueTrie.prefixValue, ValueTrie.children,
      Bool.and_eq_true] at h
    cases l with
    | nil =>
      simp only [ValueTrie.addRunes, ValueTrie.inv, ValueTrie.prefixValue,
        ValueTrie.children, Bool.and_eq_true]
      exact h
    | cons c rest =>
      cases hc : lookupKey c cs with
      | some n =>
        simp only [ValueTrie.addRunes, hc, ValueTrie.inv, ValueTrie.prefixValue,
          ValueTrie.children, Bool.and_eq_true]
        refine ⟨h.1, belowOK_updateKey cs c _ h.2 ?_⟩
        exact childrenAllZero_addRunes rest n vals (i + 1)
          (belowOK_lookup cs c n h.2 hc)
      | none =>
        simp only [ValueTrie.addRunes, hc]
        split <;>
        · simp only [ValueTrie.inv, ValueTrie.prefixValue, ValueTrie.children,
            Bool.and_eq_true]
          refine ⟨h.1, belowOK_updateKey cs c _ h.2 ?_⟩
          exact childrenAllZero_addRunes rest _ vals _ rfl

/-- removeRunes keeps every subtree prefixValue-free: it only clears leaf
flags and deletes children. -/
theorem allZeroPV_removeRunes (l : List Char) :
    ∀ t : ValueTrie, t.allZeroPV = true → (t.removeRunes l).1.allZeroPV = true := by
  induction l with
  | nil =>
    intro t h
    cases t with
    | node v pv lf cs => exact h
  | cons c rest ih =>
    intro t h
    cases t with
    | node v pv lf cs =>
      simp only [ValueTrie.allZeroPV, Bool.and_eq_true] at h
      cases hc : lookupKey c cs with
      | some child =>
        simp only [ValueTrie.removeRunes, hc]
        split <;>
          · simp only [ValueTrie.allZeroPV, Bool.and_eq_true]
            constructor
            · exact h.1
            · first
              | exact allZeroPVList_eraseKey cs c h.2
              | exact allZeroPVList_updateKey cs c _ h.2
                  (ih child (allZeroPVList_lookup cs c child h.2 hc))
      | none =>
        simp only [ValueTrie.removeRunes, hc, ValueTrie.allZeroPV, Bool.and_eq_true]
        exact h

/-- removeRunes keeps a node's children prefixValue-free. -/
theorem childrenAllZero_removeRunes (l : List Char) (t : ValueTrie)
    (h : allZeroPVList t.children = true) :
    allZeroPVList (t.removeRunes l).1.children = true := by
  cases t with
  | node v pv lf cs =>
    cases l with
    | nil => exact h
    | cons c rest =>
      cases hc : lookupKey c cs with
      | some child =>
        simp only [ValueTrie.removeRunes, hc]
        split <;> simp only [ValueTrie.children]
        · exact allZeroPVList_eraseKey cs c h
        · exact allZeroPVList_updateKey cs c _ h
            (allZeroPV_removeRunes rest child (allZeroPVList_lookup cs c child h hc))
      | none =>
        simp only [ValueTrie.removeRunes, hc, ValueTrie.children]
        exact h

/-- removeRunes preserves claim C9's invariant. -/
theorem inv_removeRunes (l : List Char) (t : ValueTrie) (h : t.inv = true) :
    (t.removeRunes l).1.inv = true := by
  cases t with
  | node v pv lf cs =>
    simp only [ValueTrie.inv, ValueTrie.prefixValue, ValueTrie.children,
      Bool.and_eq_true] at h
    cases l with
    | nil =>
      simp only [ValueTrie.removeRunes, ValueTrie.inv, ValueTrie.prefixValue,
        ValueTrie.children, Bool.and_eq_true]
      exact h
    | cons c rest =>
      cases hc : lookupKey c cs with
      | some child =>
        simp only [ValueTrie.removeRunes, hc]
        split <;>
          · simp only [ValueTrie.inv, ValueTrie.prefixValue, ValueTrie.children,
              Bool.and_eq_true]
            constructor
            · exact h.1
            · first
              | exact belowOK_eraseKey cs c h.2
              | exact belowOK_updateKey cs c _ h.2
                  (childrenAllZero_removeRunes rest child (belowOK_lookup cs c child h.2 hc))
      | none =>
        simp only [ValueTrie.removeRunes, hc, ValueTrie.inv, ValueTrie.prefixValue,
          ValueTrie.children, Bool.and_eq_true]
        exact h

/-- Below a prefixValue-free frontier, getValues emits no prefix values. -/
theorem getValues_plain_of_allZero (cs : List Char) :
    ∀ p : ValueTrie, allZeroPVList p.children = true →
      p.getValues cs = p.getValuesPlain cs := by
  induction cs with
  | nil => intro p _; rfl
  | cons c rest ih =>
    intro p h
    cases hc : lookupKey c p.children with
    | none => simp [ValueTrie.getValues, ValueTrie.getValuesPlain, hc]
    | some child =>
      have hz := allZeroPVList_lookup _ c child h hc
      cases child with
      | node cv cpv clf ccs =>
        simp only [ValueTrie.allZeroPV, Bool.and_eq_true, beq_iff_eq] at hz
        have hz2 : allZeroPVList (ValueTrie.node cv cpv clf ccs).children = true := hz.2
        simp only [ValueTrie.getValues, ValueTrie.getValuesPlain, hc]
        rw [ih _ hz2]
        simp [ValueTrie.prefixValue, hz.1]

/-- Below a prefixValue-free frontier, LongestSubstring's walk emits no prefix
values. -/
theorem longest_plain_of_allZero (cs : List Char) :
    ∀ p : ValueTrie, allZeroPVList p.children = true →
      p.longestSubstringRunes cs = p.longestPlainRunes cs := by
  induction cs with
  | nil => intro p _; rfl
  | cons c rest ih =>
    intro p h
    cases hc : lookupKey c p.children with
    | none => simp [ValueTrie.longestSubstringRunes, ValueTrie.longestPlainRunes, hc]
    | some child =>
      have hz := allZeroPVList_lookup _ c child h hc
      cases child with
      | node cv cpv clf ccs =>
        simp only [ValueTrie.allZeroPV, Bool.and_eq_true, beq_iff_eq] at hz
        have hz2 : allZeroPVList (ValueTrie.node cv cpv clf ccs).children = true := hz.2
        simp only [ValueTrie.longestSubstringRunes, ValueTrie.longestPlainRunes, hc]
        rw [ih _ hz2]
        simp [ValueTrie.prefixValue, hz.1]

/-- Claim C9: a nonzero prefixValue is only ever stored on a direct child of
the root; Add, AddPatternString and Remove preserve this invariant, and under
it ValuesForString and LongestSubstring can emit a prefix value only at the
first step of their walk — the remaining emitted values are exactly the
per-node values. -/
theorem prefixValue_only_first_level (t : ValueTrie) (s : String) (v : List Int)
    (h : t.inv = true) :
    (t.Add s v).inv = true ∧
    (t.AddPatternString s).inv = true ∧
    (t.Remove s).inv = true ∧
    (t.ValuesForString s).1 = t.pvHead s.toList ++ (t.getValuesPlain s.toList).1 ∧
    (t.LongestSubstring s).2 = t.pvHead s.toList ++ (t.longestPlainRunes s.toList).2 := by
  refine ⟨?_, ?_, ?_, ?_, ?_⟩
  · unfold ValueTrie.Add
    by_cases he : s.toList = []
    · rw [if_pos he]
      exact h
    · rw [if_neg he]
      exact inv_addRunes s.toList t v 0 _ h
  · exact inv_addRunes _ t _ 0 _ h
  · unfold ValueTrie.Remove
    by_cases he : s.toList = []
    · rw [if_pos he]
      exact h
    · rw [if_neg he]
      exact inv_removeRunes s.toList t h
  · have hb : belowOK t.children = true := by
      have := h
      cases t with
      | node v0 pv0 lf0 cs0 =>
        simp only [ValueTrie.inv, Bool.and_eq_true] at this
        exact this.2
    show (t.getValues s.toList).1 = t.pvHead s.toList ++ (t.getValuesPlain s.toList).1
    cases s.toList with
    | nil => rfl
    | cons c rest =>
      cases hc : lookupKey c t.children with
      | none => simp [ValueTrie.getValues, ValueTrie.getValuesPlain, ValueTrie.pvHead, hc]
      | some child =>
        have hcz := belowOK_lookup _ c child hb hc
        simp only [ValueTrie.getValues, ValueTrie.getValuesPlain, ValueTrie.pvHead, hc]
        rw [getValues_plain_of_allZero rest child hcz]
  · have hb : belowOK t.children = true := by
      have := h
      cases t with
      | node v0 pv0 lf0 cs0 =>
        simp only [ValueTrie.inv, Bool.and_eq_true] at this
        exact this.2
    show (t.longestSubstringRunes s.toList).2
      = t.pvHead s.toList ++ (t.longestPlainRunes s.toList).2
    cases s.toList with
    | nil => rfl
    | cons c rest =>
      cases hc : lookupKey c t.children with
      | none =>
        simp [ValueTrie.longestSubstringRunes, ValueTrie.longestPlainRunes,
          ValueTrie.pvHead, hc]
      | some child =>
        have hcz := belowOK_lookup _ c child hb hc
        simp only [ValueTrie.longestSubstringRunes, ValueTrie.longestPlainRunes,
          ValueTrie.pvHead, hc]
        rw [longest_plain_of_allZero rest child hcz]

/-- Claim C9, witness: on the trie holding pattern "5emnix" (whose first-level
node for 'e' carries prefixValue 5), the invariant holds and is preserved, and
the walk for "emnix" emits the prefix value only as its leading element. -/
theorem prefixValue_only_first_level_witness :
    ((NewValueTrie.AddPatternString "5emnix").Add "ab" [1, 2]).inv = true ∧
    ((NewValueTrie.AddPatternString "5emnix").ValuesForString "ab").1
      = (NewValueTrie.AddPatternString "5emnix").pvHead "ab".toList
        ++ ((NewValueTrie.AddPatternString "5emnix").getValuesPlain "ab".toList).1 :=
  ⟨(prefixValue_only_first_level (NewValueTrie.AddPatternString "5emnix") "ab" [1, 2]
      (by decide)).1,
   (prefixValue_only_first_level (NewValueTrie.AddPatternString "5emnix") "ab" [1, 2]
      (by decide)).2.2.2.1⟩

/-- Claim C5: with exactly the members "hyph", "hen", "hena", "henat"
inserted, the spec-modelled AllSubstrings("henation") returns exactly
["hen", "hena", "henat"], in increasing match length at start offset 0. -/
theorem AllSubstrings_henation_matches :
    ((((NewTrie.Add "hyph").Add "hen").Add "hena").Add "henat").AllSubstrings "henation"
      = ["hen", "hena", "henat"] :=
  rfl

end GoTrie
